import Mathlib

/-!
Verification of the IPL search-engine indexing pipeline.

Shallow embedding of the indexing core:
  * `LexiconBuilder.build_from_documents`   (src/src/lexicon_builder.py)
  * `ForwardIndexBuilder.build_from_documents` (src/backend/src/forward_index_builder.py)
  * `InvertedIndexBuilder.build_from_forward_index` (src/src/inverted_index_builder.py)
  * `BarrelManager` (src/backend/src/barrel_manager.py)

Python dictionaries are embedded as association lists that keep insertion
order, with `dictGet` (first match) and `dictInsert` (update in place, or
append a fresh key at the end) — exactly the observable behaviour of a
Python `dict` whose keys are kept unique by construction.  `set(...)` in
`flush_barrels` is used by the code only through membership of the
resulting list, so `list(set(xs))` is embedded as `xs.dedup` (same
members, no duplicates).  The filesystem seen by `BarrelManager` is a
total map from barrel id to a file state: `missing` (no file),
`corrupt` (present, fails to unpickle), or `good data`.
-/

/-- Lookup in a Python-dict-style association list: first matching key. -/
def dictGet {α β : Type} [DecidableEq α] (d : List (α × β)) (k : α) : Option β :=
  match d with
  | [] => none
  | (k₁, v) :: rest => if k₁ = k then some v else dictGet rest k

/-- Python `d[k] = v`: update the existing binding in place, else append. -/
def dictInsert {α β : Type} [DecidableEq α] (d : List (α × β)) (k : α) (v : β) :
    List (α × β) :=
  match d with
  | [] => [(k, v)]
  | (k₁, v₁) :: rest => if k₁ = k then (k, v) :: rest else (k₁, v₁) :: dictInsert rest k v

theorem dictGet_insert_self {α β : Type} [DecidableEq α] (d : List (α × β)) (k : α) (v : β) :
    dictGet (dictInsert d k v) k = some v := by
  induction d with
  | nil => simp [dictGet, dictInsert]
  | cons p rest ih =>
    obtain ⟨k₁, v₁⟩ := p
    by_cases h : k₁ = k
    · rw [dictInsert, if_pos h, dictGet, if_pos rfl]
    · rw [dictInsert, if_neg h, dictGet, if_neg h]
      exact ih

theorem dictGet_insert_ne {α β : Type} [DecidableEq α] (d : List (α × β)) (k k₂ : α) (v : β)
    (h : k₂ ≠ k) : dictGet (dictInsert d k v) k₂ = dictGet d k₂ := by
  induction d with
  | nil => simp [dictGet, dictInsert, Ne.symm h]
  | cons p rest ih =>
    obtain ⟨k₁, v₁⟩ := p
    by_cases h₁ : k₁ = k
    · rw [dictInsert, if_pos h₁, dictGet, if_neg (Ne.symm h), dictGet,
        if_neg (fun h₂ => h (h₂.symm.trans h₁))]
    · rw [dictInsert, if_neg h₁, dictGet, dictGet]
      by_cases h₂ : k₁ = k₂
      · rw [if_pos h₂, if_pos h₂]
      · rw [if_neg h₂, if_neg h₂]
        exact ih

theorem mem_keys_dictInsert {α β : Type} [DecidableEq α] (d : List (α × β)) (k k₂ : α) (v : β) :
    k₂ ∈ (dictInsert d k v).map Prod.fst ↔ k₂ ∈ d.map Prod.fst ∨ k₂ = k := by
  induction d with
  | nil => simp [dictInsert]
  | cons p rest ih =>
    obtain ⟨k₁, v₁⟩ := p
    by_cases h : k₁ = k
    · rw [dictInsert, if_pos h]
      subst h
      simp only [List.map_cons, List.mem_cons]
      tauto
    · rw [dictInsert, if_neg h]
      simp only [List.map_cons, List.mem_cons, ih]
      tauto

theorem nodup_keys_dictInsert {α β : Type} [DecidableEq α] (d : List (α × β)) (k : α) (v : β) :
    (d.map Prod.fst).Nodup → ((dictInsert d k v).map Prod.fst).Nodup := by
  induction d with
  | nil =>
    intro _
    simp [dictInsert]
  | cons p rest ih =>
    obtain ⟨k₁, v₁⟩ := p
    intro h
    simp only [List.map_cons, List.nodup_cons] at h
    by_cases h₁ : k₁ = k
    · rw [dictInsert, if_pos h₁]
      subst h₁
      simpa using h
    · rw [dictInsert, if_neg h₁]
      simp only [List.map_cons, List.nodup_cons]
      refine ⟨?_, ih h.2⟩
      rw [mem_keys_dictInsert]
      rintro (hm | hm)
      · exact h.1 hm
      · exact h₁ hm

theorem mem_dictInsert {α β : Type} [DecidableEq α] (d : List (α × β)) (k : α) (v : β)
    (q : α × β) : q ∈ dictInsert d k v → q ∈ d ∨ q = (k, v) := by
  induction d with
  | nil =>
    intro h
    simpa [dictInsert] using h
  | cons p rest ih =>
    obtain ⟨k₁, v₁⟩ := p
    intro h
    by_cases h₁ : k₁ = k
    · rw [dictInsert, if_pos h₁] at h
      rcases List.mem_cons.mp h with h₂ | h₂
      · exact Or.inr h₂
      · exact Or.inl (List.mem_cons_of_mem _ h₂)
    · rw [dictInsert, if_neg h₁] at h
      rcases List.mem_cons.mp h with h₂ | h₂
      · exact Or.inl (List.mem_cons.mpr (Or.inl h₂))
      · rcases ih h₂ with h₃ | h₃
        · exact Or.inl (List.mem_cons_of_mem _ h₃)
        · exact Or.inr h₃

theorem dictInsert_of_not_mem {α β : Type} [DecidableEq α] (d : List (α × β)) (k : α) (v : β) :
    k ∉ d.map Prod.fst → dictInsert d k v = d ++ [(k, v)] := by
  induction d with
  | nil =>
    intro _
    simp [dictInsert]
  | cons p rest ih =>
    obtain ⟨k₁, v₁⟩ := p
    intro h
    simp only [List.map_cons, List.mem_cons] at h
    push_neg at h
    rw [dictInsert, if_neg (Ne.symm h.1), ih h.2, List.cons_append]

theorem dictGet_mem {α β : Type} [DecidableEq α] (d : List (α × β)) (k : α) (v : β) :
    dictGet d k = some v → (k, v) ∈ d := by
  induction d with
  | nil =>
    intro h
    simp [dictGet] at h
  | cons p rest ih =>
    obtain ⟨k₁, v₁⟩ := p
    intro h
    by_cases h₁ : k₁ = k
    · rw [dictGet, if_pos h₁] at h
      have hv : v₁ = v := Option.some.inj h
      rw [← h₁, ← hv]
      exact List.mem_cons_self _ _
    · rw [dictGet, if_neg h₁] at h
      exact List.mem_cons_of_mem _ (ih h)

theorem dictGet_eq_none {α β : Type} [DecidableEq α] (d : List (α × β)) (k : α) :
    dictGet d k = none ↔ k ∉ d.map Prod.fst := by
  induction d with
  | nil => simp [dictGet]
  | cons p rest ih =>
    obtain ⟨k₁, v₁⟩ := p
    by_cases h₁ : k₁ = k
    · rw [dictGet, if_pos h₁]
      subst h₁
      simp
    · rw [dictGet, if_neg h₁]
      simp only [ih, List.map_cons, List.mem_cons]
      constructor
      · intro hm hor
        rcases hor with he | he
        · exact h₁ he.symm
        · exact hm he
      · intro hm he
        exact hm (Or.inr he)

theorem dictGet_of_mem_nodup {α β : Type} [DecidableEq α] (d : List (α × β)) (k : α) (v : β)
    (hnd : (d.map Prod.fst).Nodup) (h : (k, v) ∈ d) : dictGet d k = some v := by
  induction d with
  | nil => simp at h
  | cons p rest ih =>
    obtain ⟨k₁, v₁⟩ := p
    simp only [List.map_cons, List.nodup_cons] at hnd
    rcases List.mem_cons.mp h with h₂ | h₂
    · have hk : k₁ = k := (congrArg Prod.fst h₂).symm
      have hv : v₁ = v := (congrArg Prod.snd h₂).symm
      rw [dictGet, if_pos hk, hv]
    · have hk : k₁ ≠ k := by
        intro he
        exact hnd.1 (he ▸ (List.mem_map.mpr ⟨(k, v), h₂, rfl⟩))
      rw [dictGet, if_neg hk]
      exact ih hnd.2 h₂

/-- With unique keys, `dictGet` characterises membership. -/
theorem dictGet_some_iff {α β : Type} [DecidableEq α] (d : List (α × β)) (k : α) (v : β)
    (hnd : (d.map Prod.fst).Nodup) : dictGet d k = some v ↔ (k, v) ∈ d :=
  ⟨dictGet_mem d k v, dictGet_of_mem_nodup d k v hnd⟩

/-!  Data model: documents as produced by the (excluded) document processor. -/

/-- A processed document: `doc_id` plus its ordered token sequence. -/
structure Document where
  doc_id : Nat
  tokens : List String
deriving DecidableEq, Repr

/-!  `LexiconBuilder` (src/src/lexicon_builder.py). -/

/-- State of `LexiconBuilder`: the `word -> word_id` dict and the running
`next_word_id` counter, as set up by `__init__`. -/
structure LexiconBuilder where
  lexicon : List (String × Nat)
  next_word_id : Nat
deriving DecidableEq, Repr

/-- `LexiconBuilder.__init__`: empty lexicon, counter 0. -/
def LexiconBuilder.init : LexiconBuilder := ⟨[], 0⟩

/-- Python's string comparison: lexicographic on the code-point sequence.
(Provably the same relation as Mathlib's `String ≤`, see `strLe_iff`;
stated on `.data` so that it evaluates by kernel reduction.) -/
def strLe (a b : String) : Prop := a.data ≤ b.data

instance : DecidableRel strLe := fun a b => inferInstanceAs (Decidable (a.data ≤ b.data))

theorem strLe_iff (a b : String) : strLe a b ↔ a ≤ b := by
  rw [String.le_iff_toList_le]
  exact Iff.rfl

instance : IsTotal String strLe :=
  ⟨fun a b => by
    rw [strLe_iff, strLe_iff]
    exact le_total a b⟩

instance : IsTrans String strLe :=
  ⟨fun a b c hab hbc => by
    rw [strLe_iff] at *
    exact le_trans hab hbc⟩

/-- The distinct tokens of the collection in sorted order: the code builds a
Python `set` of all tokens (`unique_words.update(tokens)`) and then calls
`sorted` on it, which yields exactly the sorted list of distinct tokens
(Python sorts strings lexicographically by code points, i.e. by `strLe`). -/
def sortedWords (documents : List Document) : List String :=
  List.insertionSort strLe
    ((documents.foldl (fun acc doc => acc ++ doc.tokens) []).dedup)

/-- `LexiconBuilder.build_from_documents`: collect the distinct tokens,
sort them, then `for word in sorted_words: self.lexicon[word] = self.next_word_id;
self.next_word_id += 1`.  Note that the code does NOT reset `self.lexicon`
or `self.next_word_id` before the loop. -/
def LexiconBuilder.build_from_documents (b : LexiconBuilder) (documents : List Document) :
    LexiconBuilder :=
  (sortedWords documents).foldl
    (fun b word => ⟨dictInsert b.lexicon word b.next_word_id, b.next_word_id + 1⟩) b

/-- `LexiconBuilder.get_word_id`: `self.lexicon.get(word)` — `None` when absent. -/
def LexiconBuilder.get_word_id (b : LexiconBuilder) (word : String) : Option Nat :=
  dictGet b.lexicon word

/-!  `ForwardIndexBuilder` (src/backend/src/forward_index_builder.py). -/

/-- State of `ForwardIndexBuilder`: the lexicon passed to `__init__` and the
`doc_id -> word_ids` dict accumulated by `build_from_documents`. -/
structure ForwardIndexBuilder where
  lexicon : List (String × Nat)
  forward_index : List (Nat × List Nat)
deriving DecidableEq, Repr

/-- The per-document loop body: `word_ids = []`, then for each token
`word_id = self.lexicon.get(token); if word_id is not None: word_ids.append(word_id)`. -/
def docWordIds (lexicon : List (String × Nat)) (tokens : List String) : List Nat :=
  tokens.foldl
    (fun word_ids token =>
      match dictGet lexicon token with
      | some word_id => word_ids ++ [word_id]
      | none => word_ids) []

/-- `ForwardIndexBuilder.build_from_documents`: for each document store its
translated word-id list under its `doc_id`. -/
def ForwardIndexBuilder.build_from_documents (fb : ForwardIndexBuilder)
    (documents : List Document) : ForwardIndexBuilder :=
  documents.foldl
    (fun fb doc =>
      { fb with
        forward_index := dictInsert fb.forward_index doc.doc_id
          (docWordIds fb.lexicon doc.tokens) })
    fb

/-!  `BarrelManager` (src/backend/src/barrel_manager.py).  The filesystem is
embedded as a total map from barrel id to a `FileState`. -/

/-- State of one barrel file on disk: absent, present-but-unreadable
(`pickle.load` raises), or readable with the given posting map. -/
inductive FileState where
  | missing
  | corrupt
  | good (data : List (Nat × List Nat))
deriving DecidableEq, Repr

/-- State of `BarrelManager`: barrel size, the nested in-memory buffer
`barrel_id -> word_id -> list of doc_ids`, and the barrel directory. -/
structure BarrelManager where
  barrel_size : Nat
  barrels_buffer : List (Nat × List (Nat × List Nat))
  disk : Nat → FileState

/-- `BarrelManager.__init__` with a fresh output directory (no barrel files). -/
def BarrelManager.init (barrel_size : Nat) : BarrelManager :=
  ⟨barrel_size, [], fun _ => FileState.missing⟩

/-- `BarrelManager.get_barrel_id`: `word_id // self.barrel_size`. -/
def BarrelManager.get_barrel_id (s : BarrelManager) (word_id : Nat) : Nat :=
  word_id / s.barrel_size

/-- `BarrelManager.add_to_barrel`:
`self.barrels_buffer[barrel_id][word_id].append(doc_id)` with `defaultdict`
semantics (missing entries start as empty). -/
def BarrelManager.add_to_barrel (s : BarrelManager) (word_id doc_id : Nat) : BarrelManager :=
  let barrel_id := s.get_barrel_id word_id
  let inner := (dictGet s.barrels_buffer barrel_id).getD []
  let docs := (dictGet inner word_id).getD []
  { s with
    barrels_buffer :=
      dictInsert s.barrels_buffer barrel_id (dictInsert inner word_id (docs ++ [doc_id])) }

/-- Reading one barrel file the way the code does everywhere: a missing file
or a file that fails to deserialize gives the empty map. -/
def readBarrelFile (fs : FileState) : List (Nat × List Nat) :=
  match fs with
  | FileState.good data => data
  | _ => []

/-- The merge loop of `flush_barrels`: for each buffered `word_id`, replace the
existing entry by `list(set(current + new))` (embedded as `dedup` of the
concatenation — same members, duplicates removed), or insert `list(set(new))`
for a fresh `word_id`. -/
def mergeBarrel (current newData : List (Nat × List Nat)) : List (Nat × List Nat) :=
  newData.foldl
    (fun cur p =>
      match dictGet cur p.1 with
      | some old => dictInsert cur p.1 (old ++ p.2).dedup
      | none => dictInsert cur p.1 p.2.dedup)
    current

/-- One iteration of the `flush_barrels` loop for buffered barrel `p`: load the
existing file (missing/corrupt = empty), merge, write back. -/
def flushStep (d : Nat → FileState) (p : Nat × List (Nat × List Nat)) : Nat → FileState :=
  fun b => if b = p.1 then FileState.good (mergeBarrel (readBarrelFile (d p.1)) p.2) else d b

/-- `BarrelManager.flush_barrels` (all writes succeed): write every buffered
barrel, then `self.barrels_buffer.clear()`. -/
def BarrelManager.flush_barrels (s : BarrelManager) : BarrelManager :=
  { s with disk := s.barrels_buffer.foldl flushStep s.disk, barrels_buffer := [] }

/-- `BarrelManager.load_barrel`: missing file or failed deserialization gives
the empty map; otherwise the stored posting map. -/
def BarrelManager.load_barrel (s : BarrelManager) (barrel_id : Nat) : List (Nat × List Nat) :=
  readBarrelFile (s.disk barrel_id)

/-- `BarrelManager.get_documents_for_word`:
`self.load_barrel(self.get_barrel_id(word_id)).get(word_id, [])`. -/
def BarrelManager.get_documents_for_word (s : BarrelManager) (word_id : Nat) : List Nat :=
  (dictGet (s.load_barrel (s.get_barrel_id word_id)) word_id).getD []

/-- The `flush_barrels` loop when a write may raise: `failSet b` means the
write of barrel `b` fails (`pickle.dump` raises).  The exception propagates
immediately: barrels already written stay written, the buffer is untouched. -/
def flushFailLoop (failSet : Nat → Bool) (entries : List (Nat × List (Nat × List Nat)))
    (d : Nat → FileState) : Except (Nat → FileState) (Nat → FileState) :=
  match entries with
  | [] => Except.ok d
  | p :: rest =>
    if failSet p.1 then Except.error d
    else flushFailLoop failSet rest (flushStep d p)

/-- `BarrelManager.flush_barrels` with possibly-failing writes.  On success the
buffer is cleared; on a raised write error the method exits before
`self.barrels_buffer.clear()`, so the buffer keeps all pending postings. -/
def BarrelManager.flush_barrels_fail (failSet : Nat → Bool) (s : BarrelManager) :
    Except BarrelManager BarrelManager :=
  match flushFailLoop failSet s.barrels_buffer s.disk with
  | Except.error d => Except.error { s with disk := d }
  | Except.ok d => Except.ok { s with disk := d, barrels_buffer := [] }

/-!  `InvertedIndexBuilder` (src/src/inverted_index_builder.py). -/

/-- The inner loop of `build_from_forward_index` for one forward-index entry:
`for word_id in word_ids: self.barrel_manager.add_to_barrel(word_id, doc_id)`. -/
def addDocPostings (s : BarrelManager) (doc_id : Nat) (word_ids : List Nat) : BarrelManager :=
  word_ids.foldl (fun s word_id => s.add_to_barrel word_id doc_id) s

/-- `InvertedIndexBuilder.build_from_forward_index`: buffer every
`(word_id, doc_id)` pair of the forward index, then a final flush. -/
def InvertedIndexBuilder.build_from_forward_index (s : BarrelManager)
    (forward_index : List (Nat × List Nat)) : BarrelManager :=
  BarrelManager.flush_barrels
    (forward_index.foldl (fun s p => addDocPostings s p.1 p.2) s)

/-!  Lexicon lemmas. -/

/-- The id-assignment loop of `build_from_documents` as a pure function:
the words in order receive consecutive ids starting at `n`. -/
def assignIds : List String → Nat → List (String × Nat)
  | [], _ => []
  | w :: ws, n => (w, n) :: assignIds ws (n + 1)

theorem assignIds_map_fst (ws : List String) (n : Nat) :
    (assignIds ws n).map Prod.fst = ws := by
  induction ws generalizing n with
  | nil => rfl
  | cons w ws ih => simp [assignIds, ih]

theorem assignIds_map_snd (ws : List String) (n : Nat) :
    (assignIds ws n).map Prod.snd = List.range' n ws.length := by
  induction ws generalizing n with
  | nil => rfl
  | cons w ws ih => simp [assignIds, ih, List.range']

/-- The assignment loop, run from any starting lexicon and counter whose keys
avoid the (distinct) words being inserted, appends the new bindings. -/
theorem lexFold_eq (ws : List String) :
    ∀ (L : List (String × Nat)) (n : Nat), ws.Nodup →
      (∀ w ∈ ws, w ∉ L.map Prod.fst) →
      ws.foldl
          (fun b word =>
            (⟨dictInsert b.lexicon word b.next_word_id, b.next_word_id + 1⟩ : LexiconBuilder))
          ⟨L, n⟩
        = ⟨L ++ assignIds ws n, n + ws.length⟩ := by
  induction ws with
  | nil =>
    intro L n _ _
    simp [assignIds]
  | cons w ws ih =>
    intro L n hnd hdisj
    have h₁ : dictInsert L w n = L ++ [(w, n)] :=
      dictInsert_of_not_mem L w n (hdisj w (List.mem_cons_self _ _))
    have hnd₂ := List.nodup_cons.mp hnd
    have hdisj₂ : ∀ w₂ ∈ ws, w₂ ∉ (L ++ [(w, n)]).map Prod.fst := by
      intro w₂ hw₂
      rw [List.map_append, List.mem_append]
      rintro (hm | hm)
      · exact hdisj w₂ (List.mem_cons_of_mem _ hw₂) hm
      · simp only [List.map_cons, List.map_nil, List.mem_singleton] at hm
        exact hnd₂.1 (hm ▸ hw₂)
    simp only [List.foldl_cons]
    rw [h₁, ih (L ++ [(w, n)]) (n + 1) hnd₂.2 hdisj₂]
    simp only [assignIds, List.append_assoc, List.singleton_append, List.length_cons,
      LexiconBuilder.mk.injEq]
    exact ⟨trivial, by omega⟩

/-- The sorted de-duplicated vocabulary has no duplicates. -/
theorem sortedWords_nodup (documents : List Document) : (sortedWords documents).Nodup :=
  (List.perm_insertionSort strLe _).nodup_iff.mpr (List.nodup_dedup _)

/-- `build_from_documents` on a fresh builder yields exactly the sorted
vocabulary paired with ids `0..N-1`, and leaves the counter at `N`. -/
theorem lexicon_init_build (documents : List Document) :
    LexiconBuilder.init.build_from_documents documents
      = ⟨assignIds (sortedWords documents) 0, (sortedWords documents).length⟩ := by
  have h := lexFold_eq (sortedWords documents) [] 0 (sortedWords_nodup documents)
    (by intro w _ hm; simp at hm)
  simpa [LexiconBuilder.build_from_documents, LexiconBuilder.init] using h

/-- C2: on a fresh `LexiconBuilder`, the built lexicon lists the de-duplicated
vocabulary in lexicographic order, its ids are exactly the contiguous range
`0..N-1` with no duplicates, and building from identical document input
yields an identical mapping (the result is a pure function of the input). -/
theorem lexicon_dense_sorted_deterministic (documents : List Document) :
    ((LexiconBuilder.init.build_from_documents documents).lexicon).map Prod.fst
        = sortedWords documents ∧
      ((LexiconBuilder.init.build_from_documents documents).lexicon).map Prod.snd
        = List.range (sortedWords documents).length ∧
      List.Sorted strLe
        (((LexiconBuilder.init.build_from_documents documents).lexicon).map Prod.fst) ∧
      (((LexiconBuilder.init.build_from_documents documents).lexicon).map Prod.fst).Nodup ∧
      ∀ documents₂, documents₂ = documents →
        (LexiconBuilder.init.build_from_documents documents₂).lexicon
          = (LexiconBuilder.init.build_from_documents documents).lexicon := by
  rw [lexicon_init_build]
  refine ⟨assignIds_map_fst .., ?_, ?_, ?_, ?_⟩
  · rw [assignIds_map_snd, List.range_eq_range']
  · rw [assignIds_map_fst]
    exact List.sorted_insertionSort strLe _
  · rw [assignIds_map_fst]
    exact sortedWords_nodup documents
  · intro documents₂ h
    rw [h, lexicon_init_build]

/-- C2 witness: the C2 theorem applied at a concrete two-word collection,
the determinism conjunct discharged with identical input. -/
theorem lexicon_dense_sorted_deterministic_witness :
    ((LexiconBuilder.init.build_from_documents [⟨0, ["b", "a"]⟩]).lexicon).map Prod.snd
        = List.range (sortedWords [⟨0, ["b", "a"]⟩]).length ∧
      (LexiconBuilder.init.build_from_documents [⟨0, ["b", "a"]⟩]).lexicon
        = (LexiconBuilder.init.build_from_documents [⟨0, ["b", "a"]⟩]).lexicon :=
  ⟨(lexicon_dense_sorted_deterministic [⟨0, ["b", "a"]⟩]).2.1,
   ((lexicon_dense_sorted_deterministic [⟨0, ["b", "a"]⟩]).2.2.2.2) [⟨0, ["b", "a"]⟩] rfl⟩

/-- C7 counterexample: `build_from_documents` does not reset `self.lexicon` or
`self.next_word_id`, so a second build on the same instance (same documents)
returns a different mapping than the first build did — the result does depend
on prior builds, refuting the claim for reused instances. -/
theorem lexicon_rebuild_counterexample :
    ((LexiconBuilder.init.build_from_documents [⟨0, ["a"]⟩]).build_from_documents
        [⟨0, ["a"]⟩]).lexicon
      ≠ (LexiconBuilder.init.build_from_documents [⟨0, ["a"]⟩]).lexicon := by
  decide

/-- C7 amended: on a freshly constructed `LexiconBuilder` the counter starts
at 0 and `build_from_documents` computes the mapping from the full vocabulary
of the documents passed to that call alone; the counter ends at `N`. -/
theorem lexicon_fresh_rebuild (documents : List Document) :
    LexiconBuilder.init.next_word_id = 0 ∧
      (LexiconBuilder.init.build_from_documents documents).lexicon
        = assignIds (sortedWords documents) 0 ∧
      (LexiconBuilder.init.build_from_documents documents).next_word_id
        = (sortedWords documents).length := by
  refine ⟨rfl, ?_, ?_⟩ <;> rw [lexicon_init_build]

/-- C4: `flush_barrels` is idempotent — a second flush with no intervening
`add_to_barrel` finds an empty buffer, iterates over nothing, touches no
barrel file, and leaves the whole state (disk included) unchanged. -/
theorem flush_idempotent (s : BarrelManager) :
    s.flush_barrels.flush_barrels = s.flush_barrels := rfl

/-- C9: a missing or corrupt barrel file reads as the empty map
(`load_barrel` is total — it never raises), and `get_documents_for_word`
returns the empty posting list whenever the word's barrel is missing,
corrupt, or does not contain the word. -/
theorem missing_or_corrupt_barrel_empty (s : BarrelManager) (b w : Nat) :
    ((s.disk b = FileState.missing ∨ s.disk b = FileState.corrupt) → s.load_barrel b = []) ∧
      ((s.disk (s.get_barrel_id w) = FileState.missing ∨
          s.disk (s.get_barrel_id w) = FileState.corrupt ∨
          dictGet (s.load_barrel (s.get_barrel_id w)) w = none) →
        s.get_documents_for_word w = []) := by
  constructor
  · rintro (h | h) <;> simp [BarrelManager.load_barrel, h, readBarrelFile]
  · rintro (h | h | h)
    · simp [BarrelManager.get_documents_for_word, BarrelManager.load_barrel, h,
        readBarrelFile, dictGet]
    · simp [BarrelManager.get_documents_for_word, BarrelManager.load_barrel, h,
        readBarrelFile, dictGet]
    · simp [BarrelManager.get_documents_for_word, h]

/-- C9 witness: the C9 theorem applied to a fresh manager (all files missing). -/
theorem missing_or_corrupt_barrel_empty_witness :
    (BarrelManager.init 2).load_barrel 0 = [] ∧
      (BarrelManager.init 2).get_documents_for_word 5 = [] :=
  ⟨(missing_or_corrupt_barrel_empty (BarrelManager.init 2) 0 5).1 (Or.inl rfl),
   (missing_or_corrupt_barrel_empty (BarrelManager.init 2) 0 5).2 (Or.inl rfl)⟩

/-!  Forward-index lemmas. -/

/-- The token-translation loop equals `filterMap`: present tokens contribute
their ids in source order (duplicates kept), absent tokens are skipped. -/
theorem docWordIds_eq_filterMap (lexicon : List (String × Nat)) (tokens : List String) :
    docWordIds lexicon tokens = tokens.filterMap (dictGet lexicon) := by
  suffices h : ∀ acc : List Nat,
      tokens.foldl
          (fun word_ids token =>
            match dictGet lexicon token with
            | some word_id => word_ids ++ [word_id]
            | none => word_ids) acc
        = acc ++ tokens.filterMap (dictGet lexicon) by
    simpa [docWordIds] using h []
  induction tokens with
  | nil =>
    intro acc
    simp
  | cons t ts ih =>
    intro acc
    rw [List.foldl_cons]
    cases h : dictGet lexicon t with
    | none => simp [h, ih, List.filterMap_cons]
    | some w => simp [h, ih, List.filterMap_cons]

/-- `build_from_documents` never changes the lexicon field. -/
theorem forward_build_lexicon : ∀ (documents : List Document) (fb : ForwardIndexBuilder),
    (fb.build_from_documents documents).lexicon = fb.lexicon := by
  intro documents
  induction documents with
  | nil =>
    intro fb
    rfl
  | cons doc rest ih =>
    intro fb
    exact ih
      { fb with
        forward_index := dictInsert fb.forward_index doc.doc_id
          (docWordIds fb.lexicon doc.tokens) }

/-- Documents with other ids never disturb the entry of a given doc_id. -/
theorem forward_build_lookup_untouched : ∀ (documents : List Document)
    (fb : ForwardIndexBuilder) (k : Nat), k ∉ documents.map Document.doc_id →
    dictGet (fb.build_from_documents documents).forward_index k
      = dictGet fb.forward_index k := by
  intro documents
  induction documents with
  | nil =>
    intro fb k _
    rfl
  | cons doc rest ih =>
    intro fb k hk
    simp only [List.map_cons, List.mem_cons] at hk
    push_neg at hk
    calc
      dictGet (fb.build_from_documents (doc :: rest)).forward_index k
          = dictGet
              (({ fb with
                  forward_index := dictInsert fb.forward_index doc.doc_id
                    (docWordIds fb.lexicon doc.tokens) } :
                ForwardIndexBuilder).build_from_documents rest).forward_index k := rfl
      _ = dictGet (dictInsert fb.forward_index doc.doc_id
            (docWordIds fb.lexicon doc.tokens)) k := ih _ k hk.2
      _ = dictGet fb.forward_index k := dictGet_insert_ne _ _ _ _ hk.1

/-- With distinct doc_ids, the built forward index maps each input document
to its translated word-id list. -/
theorem forward_build_lookup : ∀ (documents : List Document) (fb : ForwardIndexBuilder)
    (doc : Document), doc ∈ documents → (documents.map Document.doc_id).Nodup →
    dictGet (fb.build_from_documents documents).forward_index doc.doc_id
      = some (docWordIds fb.lexicon doc.tokens) := by
  intro documents
  induction documents with
  | nil =>
    intro fb doc h _
    simp at h
  | cons dhead rest ih =>
    intro fb doc hmem hnd
    simp only [List.map_cons, List.nodup_cons] at hnd
    rcases List.mem_cons.mp hmem with heq | hmem₂
    · subst heq
      calc
        dictGet (fb.build_from_documents (doc :: rest)).forward_index doc.doc_id
            = dictGet
                (({ fb with
                    forward_index := dictInsert fb.forward_index doc.doc_id
                      (docWordIds fb.lexicon doc.tokens) } :
                  ForwardIndexBuilder).build_from_documents rest).forward_index doc.doc_id :=
          rfl
        _ = dictGet (dictInsert fb.forward_index doc.doc_id
              (docWordIds fb.lexicon doc.tokens)) doc.doc_id :=
          forward_build_lookup_untouched rest _ doc.doc_id hnd.1
        _ = some (docWordIds fb.lexicon doc.tokens) := dictGet_insert_self _ _ _
    · exact ih
        { fb with
          forward_index := dictInsert fb.forward_index dhead.doc_id
            (docWordIds fb.lexicon dhead.tokens) }
        doc hmem₂ hnd.2

/-- C5: for every document collection with distinct doc_ids and every lexicon,
`build_from_documents` maps each document to the lexicon-translation of its
token sequence: ids appear in source order with duplicates retained, and
exactly the tokens absent from the lexicon are skipped (`filterMap`). -/
theorem forward_index_entry_eq (lexicon : List (String × Nat)) (documents : List Document)
    (hnd : (documents.map Document.doc_id).Nodup) (doc : Document) (hdoc : doc ∈ documents) :
    dictGet ((ForwardIndexBuilder.mk lexicon []).build_from_documents documents).forward_index
        doc.doc_id
      = some (doc.tokens.filterMap (dictGet lexicon)) := by
  rw [← docWordIds_eq_filterMap]
  exact forward_build_lookup documents ⟨lexicon, []⟩ doc hdoc hnd

/-- C5 witness: a document with a duplicate present token and an absent one. -/
theorem forward_index_entry_eq_witness :
    dictGet ((ForwardIndexBuilder.mk [("a", 0)] []).build_from_documents
        [⟨7, ["a", "b", "a"]⟩]).forward_index 7
      = some ((["a", "b", "a"] : List String).filterMap (dictGet [("a", 0)])) :=
  forward_index_entry_eq [("a", 0)] [⟨7, ["a", "b", "a"]⟩] (by decide) ⟨7, ["a", "b", "a"]⟩
    (by decide)

/-- C10: a token whose lexicon id is 0 is not treated as absent — the lookup
does an explicit `is not None` check, so id 0 is recorded in the document's
forward-index entry. -/
theorem word_id_zero_not_dropped (lexicon : List (String × Nat)) (documents : List Document)
    (doc : Document) (token : String) (hnd : (documents.map Document.doc_id).Nodup)
    (hdoc : doc ∈ documents) (htok : token ∈ doc.tokens)
    (hzero : dictGet lexicon token = some 0) :
    ∃ word_ids,
      dictGet ((ForwardIndexBuilder.mk lexicon []).build_from_documents
          documents).forward_index doc.doc_id = some word_ids ∧ 0 ∈ word_ids := by
  refine ⟨docWordIds lexicon doc.tokens,
    forward_build_lookup documents ⟨lexicon, []⟩ doc hdoc hnd, ?_⟩
  rw [docWordIds_eq_filterMap]
  exact List.mem_filterMap.mpr ⟨token, htok, hzero⟩

/-- C10 witness: a token mapped to word_id 0 lands in the forward index. -/
theorem word_id_zero_not_dropped_witness :
    ∃ word_ids,
      dictGet ((ForwardIndexBuilder.mk [("z", 0)] []).build_from_documents
          [⟨3, ["z"]⟩]).forward_index 3 = some word_ids ∧ 0 ∈ word_ids :=
  word_id_zero_not_dropped [("z", 0)] [⟨3, ["z"]⟩] ⟨3, ["z"]⟩ "z" (by decide) (by decide)
    (by decide) (by decide)

/-!  Barrel-manager lemmas. -/

/-- The buffered posting list for word `w` (empty when absent). -/
def bufGet (s : BarrelManager) (w : Nat) : List Nat :=
  (dictGet ((dictGet s.barrels_buffer (s.get_barrel_id w)).getD []) w).getD []

/-- Buffer well-formedness: outer and inner key lists are duplicate-free
(holds for every buffer built by `add_to_barrel`, since `dictInsert` keeps
keys unique). -/
def BufferWF (s : BarrelManager) : Prop :=
  (s.barrels_buffer.map Prod.fst).Nodup ∧
    ∀ p ∈ s.barrels_buffer, (p.2.map Prod.fst).Nodup

/-- Disk well-formedness: every readable posting list is duplicate-free
(holds for every disk produced by flushing, since merged lists are dedups). -/
def DiskWF (s : BarrelManager) : Prop :=
  ∀ b w ds, dictGet (s.load_barrel b) w = some ds → ds.Nodup

theorem add_to_barrel_buffer (s : BarrelManager) (w d : Nat) :
    (s.add_to_barrel w d).barrels_buffer
      = dictInsert s.barrels_buffer (s.get_barrel_id w)
          (dictInsert ((dictGet s.barrels_buffer (s.get_barrel_id w)).getD []) w
            ((dictGet ((dictGet s.barrels_buffer (s.get_barrel_id w)).getD []) w).getD []
              ++ [d])) := rfl

theorem add_to_barrel_barrel_size (s : BarrelManager) (w d : Nat) :
    (s.add_to_barrel w d).barrel_size = s.barrel_size := rfl

theorem add_to_barrel_disk (s : BarrelManager) (w d : Nat) :
    (s.add_to_barrel w d).disk = s.disk := rfl

theorem get_barrel_id_add (s : BarrelManager) (w₁ d₁ w : Nat) :
    (s.add_to_barrel w₁ d₁).get_barrel_id w = s.get_barrel_id w := rfl

/-- Pointwise effect of one `add_to_barrel` on buffered posting lists:
the targeted word gains exactly one trailing `doc_id`, every other word's
buffered list (same barrel or not) is untouched. -/
theorem bufGet_add (s : BarrelManager) (w₁ d₁ w : Nat) :
    bufGet (s.add_to_barrel w₁ d₁) w
      = if w₁ = w then bufGet s w ++ [d₁] else bufGet s w := by
  by_cases h : w₁ = w
  · subst h
    rw [if_pos rfl]
    rw [bufGet, get_barrel_id_add, add_to_barrel_buffer, dictGet_insert_self,
      Option.getD_some, dictGet_insert_self, Option.getD_some]
    rfl
  · rw [if_neg h]
    by_cases hb : s.get_barrel_id w₁ = s.get_barrel_id w
    · rw [bufGet, get_barrel_id_add, add_to_barrel_buffer, ← hb, dictGet_insert_self,
        Option.getD_some, dictGet_insert_ne _ _ _ _ (fun he => h he.symm)]
      rw [bufGet, ← hb]
    · rw [bufGet, get_barrel_id_add, add_to_barrel_buffer,
        dictGet_insert_ne _ _ _ _ (fun he => hb he.symm)]
      rw [bufGet]

/-- `add_to_barrel` preserves buffer well-formedness. -/
theorem bufferWF_add (s : BarrelManager) (w d : Nat) (h : BufferWF s) :
    BufferWF (s.add_to_barrel w d) := by
  obtain ⟨h₁, h₂⟩ := h
  have hinner : (((dictGet s.barrels_buffer (s.get_barrel_id w)).getD []).map
      Prod.fst).Nodup := by
    cases hg : dictGet s.barrels_buffer (s.get_barrel_id w) with
    | none => simp
    | some inner => exact h₂ _ (dictGet_mem _ _ _ hg)
  constructor
  · rw [add_to_barrel_buffer]
    exact nodup_keys_dictInsert _ _ _ h₁
  · intro p hp
    rw [add_to_barrel_buffer] at hp
    rcases mem_dictInsert _ _ _ p hp with hm | hm
    · exact h₂ p hm
    · rw [hm]
      exact nodup_keys_dictInsert _ _ _ hinner

theorem addDocPostings_disk : ∀ (ws : List Nat) (s : BarrelManager) (d₀ : Nat),
    (addDocPostings s d₀ ws).disk = s.disk := by
  intro ws
  induction ws with
  | nil =>
    intro s d₀
    rfl
  | cons w ws ih =>
    intro s d₀
    exact ih (s.add_to_barrel w d₀) d₀

theorem addDocPostings_barrel_size : ∀ (ws : List Nat) (s : BarrelManager) (d₀ : Nat),
    (addDocPostings s d₀ ws).barrel_size = s.barrel_size := by
  intro ws
  induction ws with
  | nil =>
    intro s d₀
    rfl
  | cons w ws ih =>
    intro s d₀
    exact ih (s.add_to_barrel w d₀) d₀

theorem bufferWF_addDocPostings : ∀ (ws : List Nat) (s : BarrelManager) (d₀ : Nat),
    BufferWF s → BufferWF (addDocPostings s d₀ ws) := by
  intro ws
  induction ws with
  | nil =>
    intro s d₀ h
    exact h
  | cons w ws ih =>
    intro s d₀ h
    exact ih (s.add_to_barrel w d₀) d₀ (bufferWF_add s w d₀ h)

/-- Buffered postings after one document's postings are added: `d` is buffered
for word `w` iff it already was, or `d` is this document and `w` occurs in it. -/
theorem mem_bufGet_addDocPostings : ∀ (ws : List Nat) (s : BarrelManager) (d₀ w d : Nat),
    d ∈ bufGet (addDocPostings s d₀ ws) w ↔ d ∈ bufGet s w ∨ (d = d₀ ∧ w ∈ ws) := by
  intro ws
  induction ws with
  | nil =>
    intro s d₀ w d
    simp [addDocPostings]
  | cons w₁ ws ih =>
    intro s d₀ w d
    rw [show addDocPostings s d₀ (w₁ :: ws) = addDocPostings (s.add_to_barrel w₁ d₀) d₀ ws
      from rfl]
    rw [ih (s.add_to_barrel w₁ d₀) d₀ w d, bufGet_add]
    by_cases h : w₁ = w
    · rw [if_pos h]
      subst h
      simp only [List.mem_append, List.mem_singleton, List.mem_cons]
      tauto
    · rw [if_neg h]
      simp only [List.mem_cons]
      have hne : w ≠ w₁ := fun he => h he.symm
      constructor
      · rintro (hm | ⟨hd, hw⟩)
        · exact Or.inl hm
        · exact Or.inr ⟨hd, Or.inr hw⟩
      · rintro (hm | ⟨hd, (hw | hw)⟩)
        · exact Or.inl hm
        · exact absurd hw hne
        · exact Or.inr ⟨hd, hw⟩

theorem buildAdds_disk : ∀ (fwd : List (Nat × List Nat)) (s : BarrelManager),
    (fwd.foldl (fun s p => addDocPostings s p.1 p.2) s).disk = s.disk := by
  intro fwd
  induction fwd with
  | nil =>
    intro s
    rfl
  | cons p rest ih =>
    intro s
    rw [List.foldl_cons, ih (addDocPostings s p.1 p.2), addDocPostings_disk]

theorem buildAdds_barrel_size : ∀ (fwd : List (Nat × List Nat)) (s : BarrelManager),
    (fwd.foldl (fun s p => addDocPostings s p.1 p.2) s).barrel_size = s.barrel_size := by
  intro fwd
  induction fwd with
  | nil =>
    intro s
    rfl
  | cons p rest ih =>
    intro s
    rw [List.foldl_cons, ih (addDocPostings s p.1 p.2), addDocPostings_barrel_size]

theorem bufferWF_buildAdds : ∀ (fwd : List (Nat × List Nat)) (s : BarrelManager),
    BufferWF s → BufferWF (fwd.foldl (fun s p => addDocPostings s p.1 p.2) s) := by
  intro fwd
  induction fwd with
  | nil =>
    intro s h
    exact h
  | cons p rest ih =>
    intro s h
    rw [List.foldl_cons]
    exact ih (addDocPostings s p.1 p.2) (bufferWF_addDocPostings p.2 s p.1 h)

/-- Buffered postings after the whole inversion loop: `d` is buffered for `w`
iff it already was, or some forward-index entry `(d, ws)` has `w ∈ ws`. -/
theorem mem_bufGet_buildAdds : ∀ (fwd : List (Nat × List Nat)) (s : BarrelManager) (w d : Nat),
    d ∈ bufGet (fwd.foldl (fun s p => addDocPostings s p.1 p.2) s) w
      ↔ d ∈ bufGet s w ∨ ∃ p ∈ fwd, p.1 = d ∧ w ∈ p.2 := by
  intro fwd
  induction fwd with
  | nil =>
    intro s w d
    simp
  | cons p₁ rest ih =>
    intro s w d
    rw [List.foldl_cons, ih (addDocPostings s p₁.1 p₁.2) w d, mem_bufGet_addDocPostings]
    simp only [List.mem_cons]
    constructor
    · rintro ((hm | ⟨hd, hw⟩) | ⟨p, hp, hpd, hpw⟩)
      · exact Or.inl hm
      · exact Or.inr ⟨p₁, Or.inl rfl, hd.symm, hw⟩
      · exact Or.inr ⟨p, Or.inr hp, hpd, hpw⟩
    · rintro (hm | ⟨p, (hp | hp), hpd, hpw⟩)
      · exact Or.inl (Or.inl hm)
      · exact Or.inl (Or.inr ⟨hp ▸ hpd.symm, hp ▸ hpw⟩)
      · exact Or.inr ⟨p, hp, hpd, hpw⟩

theorem flush_barrels_disk (s : BarrelManager) :
    s.flush_barrels.disk = s.barrels_buffer.foldl flushStep s.disk := rfl

theorem flush_barrels_buffer (s : BarrelManager) : s.flush_barrels.barrels_buffer = [] := rfl

theorem flush_barrels_barrel_size (s : BarrelManager) :
    s.flush_barrels.barrel_size = s.barrel_size := rfl

/-- A barrel with no buffered postings is not touched by the flush loop. -/
theorem flush_foldl_disk_none : ∀ (entries : List (Nat × List (Nat × List Nat)))
    (d : Nat → FileState) (b : Nat), dictGet entries b = none →
    (entries.foldl flushStep d) b = d b := by
  intro entries
  induction entries with
  | nil =>
    intro d b _
    rfl
  | cons p rest ih =>
    intro d b h
    rw [dictGet] at h
    by_cases hpb : p.1 = b
    · rw [if_pos hpb] at h
      exact absurd h (by simp)
    · rw [if_neg hpb] at h
      rw [List.foldl_cons, ih (flushStep d p) b h, flushStep,
        if_neg (fun he => hpb he.symm)]

/-- A barrel with buffered postings `data` ends up on disk as the merge of its
previous readable contents with `data` (distinct buffered barrels write to
distinct files, so the loop writes each barrel exactly once). -/
theorem flush_foldl_disk_some : ∀ (entries : List (Nat × List (Nat × List Nat)))
    (d : Nat → FileState) (b : Nat) (data : List (Nat × List Nat)),
    (entries.map Prod.fst).Nodup → dictGet entries b = some data →
    (entries.foldl flushStep d) b
      = FileState.good (mergeBarrel (readBarrelFile (d b)) data) := by
  intro entries
  induction entries with
  | nil =>
    intro d b data _ h
    exact absurd h (by simp [dictGet])
  | cons p rest ih =>
    intro d b data hnd h
    simp only [List.map_cons, List.nodup_cons] at hnd
    rw [dictGet] at h
    by_cases hpb : p.1 = b
    · rw [if_pos hpb] at h
      have hdata : p.2 = data := Option.some.inj h
      have hrest : dictGet rest b = none :=
        (dictGet_eq_none rest b).mpr (hpb ▸ hnd.1)
      rw [List.foldl_cons, flush_foldl_disk_none rest (flushStep d p) b hrest, flushStep,
        if_pos hpb.symm, hpb, hdata]
    · rw [if_neg hpb] at h
      rw [List.foldl_cons, ih (flushStep d p) b data hnd.2 h, flushStep,
        if_neg (fun he => hpb he.symm)]

/-- One step of the merge loop, written uniformly: whether or not the word is
already present, its stored value becomes `dedup (existing ++ new)` (with
`existing = []` when absent, since `dedup ([] ++ new) = dedup new`). -/
theorem mergeBarrel_cons (cur : List (Nat × List Nat)) (w₁ : Nat) (ds₁ : List Nat)
    (rest : List (Nat × List Nat)) :
    mergeBarrel cur ((w₁, ds₁) :: rest)
      = mergeBarrel (dictInsert cur w₁ (((dictGet cur w₁).getD [] ++ ds₁).dedup)) rest := by
  cases h : dictGet cur w₁ with
  | none => simp [mergeBarrel, List.foldl_cons, h]
  | some old => simp [mergeBarrel, List.foldl_cons, h]

/-- Merging does not disturb words without buffered postings. -/
theorem mergeBarrel_get_none : ∀ (data cur : List (Nat × List Nat)) (w : Nat),
    dictGet data w = none → dictGet (mergeBarrel cur data) w = dictGet cur w := by
  intro data
  induction data with
  | nil =>
    intro cur w _
    rfl
  | cons p rest ih =>
    intro cur w h
    obtain ⟨w₁, ds₁⟩ := p
    rw [dictGet] at h
    by_cases hw : w₁ = w
    · rw [if_pos hw] at h
      exact absurd h (by simp)
    · rw [if_neg hw] at h
      rw [mergeBarrel_cons, ih _ w h, dictGet_insert_ne _ _ _ _ (fun he => hw he.symm)]

/-- A word with buffered postings `ds` ends up stored as
`dedup (existing ++ ds)`. -/
theorem mergeBarrel_get_some : ∀ (data cur : List (Nat × List Nat)) (w : Nat) (ds : List Nat),
    (data.map Prod.fst).Nodup → dictGet data w = some ds →
    dictGet (mergeBarrel cur data) w = some (((dictGet cur w).getD [] ++ ds).dedup) := by
  intro data
  induction data with
  | nil =>
    intro cur w ds _ h
    exact absurd h (by simp [dictGet])
  | cons p rest ih =>
    intro cur w ds hnd h
    obtain ⟨w₁, ds₁⟩ := p
    simp only [List.map_cons, List.nodup_cons] at hnd
    rw [dictGet] at h
    by_cases hw : w₁ = w
    · rw [if_pos hw] at h
      have hds : ds₁ = ds := Option.some.inj h
      subst hds
      subst hw
      have hnone : dictGet rest w₁ = none := (dictGet_eq_none rest w₁).mpr hnd.1
      rw [mergeBarrel_cons, mergeBarrel_get_none rest _ w₁ hnone, dictGet_insert_self]
    · rw [if_neg hw] at h
      rw [mergeBarrel_cons, ih _ w ds hnd.2 h,
        dictGet_insert_ne _ _ _ _ (fun he => hw he.symm)]

/-- `get_documents_for_word` only looks at the disk and the barrel size. -/
theorem getDocs_congr (s₁ s₂ : BarrelManager) (hdisk : s₁.disk = s₂.disk)
    (hbs : s₁.barrel_size = s₂.barrel_size) (w : Nat) :
    s₁.get_documents_for_word w = s₂.get_documents_for_word w := by
  rw [BarrelManager.get_documents_for_word, BarrelManager.get_documents_for_word,
    BarrelManager.load_barrel, BarrelManager.load_barrel, BarrelManager.get_barrel_id,
    BarrelManager.get_barrel_id, hdisk, hbs]

/-- Master lemma for one flush: a doc is retrievable for `w` afterwards iff it
was retrievable before or it was buffered for `w`.  (A corrupt existing file
reads as empty both before and after, so no extra hypothesis is needed.) -/
theorem mem_getDocs_flush (s : BarrelManager) (hwf : BufferWF s) (w d : Nat) :
    d ∈ s.flush_barrels.get_documents_for_word w
      ↔ d ∈ s.get_documents_for_word w ∨ d ∈ bufGet s w := by
  obtain ⟨hnd, hinner⟩ := hwf
  have hb : s.flush_barrels.get_barrel_id w = s.get_barrel_id w := rfl
  have hload : s.get_documents_for_word w
      = (dictGet (readBarrelFile (s.disk (s.get_barrel_id w))) w).getD [] := rfl
  cases hbuf : dictGet s.barrels_buffer (s.get_barrel_id w) with
  | none =>
    have hdisk : s.flush_barrels.disk (s.get_barrel_id w) = s.disk (s.get_barrel_id w) :=
      flush_foldl_disk_none _ _ _ hbuf
    have h₁ : s.flush_barrels.get_documents_for_word w = s.get_documents_for_word w := by
      rw [BarrelManager.get_documents_for_word, BarrelManager.load_barrel, hb, hdisk, hload]
    have h₂ : bufGet s w = [] := by
      rw [bufGet, hbuf]
      rfl
    rw [h₁, h₂]
    simp
  | some data =>
    have hdisk : s.flush_barrels.disk (s.get_barrel_id w)
        = FileState.good (mergeBarrel (readBarrelFile (s.disk (s.get_barrel_id w))) data) :=
      flush_foldl_disk_some _ _ _ _ hnd hbuf
    have hdata_nd : (data.map Prod.fst).Nodup := hinner _ (dictGet_mem _ _ _ hbuf)
    have hfl : s.flush_barrels.get_documents_for_word w
        = (dictGet (mergeBarrel (readBarrelFile (s.disk (s.get_barrel_id w))) data)
            w).getD [] := by
      rw [BarrelManager.get_documents_for_word, BarrelManager.load_barrel, hb, hdisk]
      rfl
    have hbg : bufGet s w = (dictGet data w).getD [] := by
      rw [bufGet, hbuf]
      rfl
    cases hdw : dictGet data w with
    | none =>
      rw [hfl, mergeBarrel_get_none data _ w hdw, hbg, hdw, hload]
      simp
    | some ds =>
      rw [hfl, mergeBarrel_get_some data _ w ds hdata_nd hdw, hbg, hdw, hload]
      simp only [Option.getD_some, List.mem_dedup, List.mem_append]

theorem bufferWF_init (bs : Nat) : BufferWF (BarrelManager.init bs) := by
  constructor
  · exact List.nodup_nil
  · intro p hp
    simp [BarrelManager.init] at hp

theorem diskWF_init (bs : Nat) : DiskWF (BarrelManager.init bs) := by
  intro b w ds h
  simp [BarrelManager.load_barrel, BarrelManager.init, readBarrelFile, dictGet] at h

/-- Disk well-formedness only depends on the disk. -/
theorem diskWF_of_disk_eq (s₁ s₂ : BarrelManager) (h : s₁.disk = s₂.disk) (hd : DiskWF s₂) :
    DiskWF s₁ := by
  intro b w ds hget
  rw [BarrelManager.load_barrel, h] at hget
  exact hd b w ds hget

/-- Flushing a well-formed buffer keeps every stored posting list
duplicate-free. -/
theorem diskWF_flush (s : BarrelManager) (hwf : BufferWF s) (hd : DiskWF s) :
    DiskWF s.flush_barrels := by
  intro b w ds hget
  rw [BarrelManager.load_barrel, flush_barrels_disk] at hget
  cases hbuf : dictGet s.barrels_buffer b with
  | none =>
    rw [flush_foldl_disk_none _ _ _ hbuf] at hget
    exact hd b w ds hget
  | some data =>
    rw [flush_foldl_disk_some _ _ _ _ hwf.1 hbuf] at hget
    have hdata_nd : (data.map Prod.fst).Nodup := hwf.2 _ (dictGet_mem _ _ _ hbuf)
    cases hdw : dictGet data w with
    | none =>
      rw [readBarrelFile, mergeBarrel_get_none data _ w hdw] at hget
      exact hd b w ds hget
    | some ds₂ =>
      rw [readBarrelFile, mergeBarrel_get_some data _ w ds₂ hdata_nd hdw] at hget
      rw [← Option.some.inj hget]
      exact List.nodup_dedup _

/-- Everything retrievable from a well-formed disk is duplicate-free. -/
theorem getDocs_nodup (s : BarrelManager) (hd : DiskWF s) (w : Nat) :
    (s.get_documents_for_word w).Nodup := by
  rw [BarrelManager.get_documents_for_word]
  cases h : dictGet (s.load_barrel (s.get_barrel_id w)) w with
  | none => exact List.nodup_nil
  | some ds => exact hd _ _ _ h

/-- C1: building the inverted index from a forward index (distinct doc_ids)
into a fresh barrel directory gives forward/inverted consistency: `w` appears
in the forward-index entry of `d` iff `d` is returned by
`get_documents_for_word w`. -/
theorem forward_inverted_consistency (bs : Nat) (hbs : 0 < bs)
    (fwd : List (Nat × List Nat)) (hnd : (fwd.map Prod.fst).Nodup) (w d : Nat) :
    (∃ ws, dictGet fwd d = some ws ∧ w ∈ ws)
      ↔ d ∈ (InvertedIndexBuilder.build_from_forward_index (BarrelManager.init bs)
          fwd).get_documents_for_word w := by
  have hwf : BufferWF (fwd.foldl (fun s p => addDocPostings s p.1 p.2)
      (BarrelManager.init bs)) :=
    bufferWF_buildAdds fwd (BarrelManager.init bs) (bufferWF_init bs)
  rw [show InvertedIndexBuilder.build_from_forward_index (BarrelManager.init bs) fwd
      = (fwd.foldl (fun s p => addDocPostings s p.1 p.2)
          (BarrelManager.init bs)).flush_barrels from rfl]
  rw [mem_getDocs_flush _ hwf w d]
  have h₀ : (fwd.foldl (fun s p => addDocPostings s p.1 p.2)
      (BarrelManager.init bs)).get_documents_for_word w = [] := by
    rw [getDocs_congr _ (BarrelManager.init bs) (buildAdds_disk fwd _)
      (buildAdds_barrel_size fwd _) w]
    rfl
  rw [h₀, mem_bufGet_buildAdds fwd (BarrelManager.init bs) w d]
  have h₁ : bufGet (BarrelManager.init bs) w = [] := rfl
  rw [h₁]
  simp only [List.not_mem_nil, false_or]
  constructor
  · rintro ⟨ws, hg, hw⟩
    exact ⟨(d, ws), dictGet_mem _ _ _ hg, rfl, hw⟩
  · rintro ⟨p, hp, hpd, hw⟩
    have hpe : (d, p.2) = p := by
      rw [← hpd]
    exact ⟨p.2, dictGet_of_mem_nodup _ _ _ hnd (hpe ▸ hp), hw⟩

/-- C1 witness: the consistency theorem at a one-entry forward index (doc 5
contains word 3) with barrel size 2. -/
theorem forward_inverted_consistency_witness :
    (∃ ws, dictGet [((5 : Nat), [(3 : Nat)])] 5 = some ws ∧ 3 ∈ ws)
      ↔ 5 ∈ (InvertedIndexBuilder.build_from_forward_index (BarrelManager.init 2)
          [(5, [3])]).get_documents_for_word 3 :=
  forward_inverted_consistency 2 (by decide) [(5, [3])] (by decide) 3 5

/-- A sequence of `add_to_barrel` calls for one word (the claim's "flush
pass"): each call appends one doc_id for that word. -/
def addList (s : BarrelManager) (w : Nat) (ds : List Nat) : BarrelManager :=
  ds.foldl (fun s d => s.add_to_barrel w d) s

theorem addList_disk : ∀ (ds : List Nat) (s : BarrelManager) (w : Nat),
    (addList s w ds).disk = s.disk := by
  intro ds
  induction ds with
  | nil =>
    intro s w
    rfl
  | cons d ds ih =>
    intro s w
    exact ih (s.add_to_barrel w d) w

theorem addList_barrel_size : ∀ (ds : List Nat) (s : BarrelManager) (w : Nat),
    (addList s w ds).barrel_size = s.barrel_size := by
  intro ds
  induction ds with
  | nil =>
    intro s w
    rfl
  | cons d ds ih =>
    intro s w
    exact ih (s.add_to_barrel w d) w

theorem bufferWF_addList : ∀ (ds : List Nat) (s : BarrelManager) (w : Nat),
    BufferWF s → BufferWF (addList s w ds) := by
  intro ds
  induction ds with
  | nil =>
    intro s w h
    exact h
  | cons d ds ih =>
    intro s w h
    exact ih (s.add_to_barrel w d) w (bufferWF_add s w d h)

theorem bufGet_addList : ∀ (ds : List Nat) (s : BarrelManager) (w : Nat),
    bufGet (addList s w ds) w = bufGet s w ++ ds := by
  intro ds
  induction ds with
  | nil =>
    intro s w
    simp [addList]
  | cons d ds ih =>
    intro s w
    rw [show addList s w (d :: ds) = addList (s.add_to_barrel w d) w ds from rfl,
      ih (s.add_to_barrel w d) w, bufGet_add, if_pos rfl, List.append_assoc,
      List.singleton_append]

/-- C3: two flush passes for a word leave on disk exactly the deduplicated
union of both passes' doc_ids, and flushing never removes a posting that was
retrievable before the flush (merge, never overwrite-wholesale). -/
theorem merge_two_passes (bs : Nat) (hbs : 0 < bs) (w : Nat) (ds₁ ds₂ : List Nat) :
    ((∀ d, d ∈ ((addList ((addList (BarrelManager.init bs) w ds₁).flush_barrels) w
            ds₂).flush_barrels).get_documents_for_word w ↔ d ∈ ds₁ ∨ d ∈ ds₂) ∧
        (((addList ((addList (BarrelManager.init bs) w ds₁).flush_barrels) w
            ds₂).flush_barrels).get_documents_for_word w).Nodup) ∧
      ∀ (s : BarrelManager), BufferWF s → ∀ w₂ d₂, d₂ ∈ s.get_documents_for_word w₂ →
        d₂ ∈ s.flush_barrels.get_documents_for_word w₂ := by
  have hwf₁ : BufferWF (addList (BarrelManager.init bs) w ds₁) :=
    bufferWF_addList ds₁ _ w (bufferWF_init bs)
  have hwf₂ : BufferWF (addList ((addList (BarrelManager.init bs) w ds₁).flush_barrels)
      w ds₂) := by
    apply bufferWF_addList
    constructor
    · rw [flush_barrels_buffer]
      exact List.nodup_nil
    · intro p hp
      rw [flush_barrels_buffer] at hp
      simp at hp
  have hg₁ : (addList (BarrelManager.init bs) w ds₁).get_documents_for_word w = [] := by
    rw [getDocs_congr _ (BarrelManager.init bs) (addList_disk ds₁ _ w)
      (addList_barrel_size ds₁ _ w) w]
    rfl
  have hbuf₁ : bufGet (addList (BarrelManager.init bs) w ds₁) w = ds₁ := by
    rw [bufGet_addList]
    rfl
  have hmem₁ : ∀ d, d ∈ ((addList (BarrelManager.init bs) w ds₁).flush_barrels
      ).get_documents_for_word w ↔ d ∈ ds₁ := by
    intro d
    rw [mem_getDocs_flush _ hwf₁ w d, hg₁, hbuf₁]
    simp
  have hg₂ : (addList ((addList (BarrelManager.init bs) w ds₁).flush_barrels) w
      ds₂).get_documents_for_word w
      = ((addList (BarrelManager.init bs) w ds₁).flush_barrels
        ).get_documents_for_word w :=
    getDocs_congr _ _ (addList_disk ds₂ _ w) (addList_barrel_size ds₂ _ w) w
  have hbuf₂ : bufGet (addList ((addList (BarrelManager.init bs) w ds₁).flush_barrels) w
      ds₂) w = ds₂ := by
    rw [bufGet_addList]
    have hbe : bufGet ((addList (BarrelManager.init bs) w ds₁).flush_barrels) w = [] := rfl
    rw [hbe, List.nil_append]
  refine ⟨⟨?_, ?_⟩, ?_⟩
  · intro d
    rw [mem_getDocs_flush _ hwf₂ w d, hg₂, hmem₁ d, hbuf₂]
  · apply getDocs_nodup
    apply diskWF_flush _ hwf₂
    apply diskWF_of_disk_eq _ ((addList (BarrelManager.init bs) w ds₁).flush_barrels)
      (addList_disk ds₂ _ w)
    apply diskWF_flush _ hwf₁
    apply diskWF_of_disk_eq _ (BarrelManager.init bs) (addList_disk ds₁ _ w)
    exact diskWF_init bs
  · intro s hwf w₂ d₂ hmem
    exact (mem_getDocs_flush s hwf w₂ d₂).mpr (Or.inl hmem)

/-- C3 witness: overlapping passes `[1,2,2]` then `[2,3]` with barrel size 2;
the union membership and duplicate-freeness, plus the preservation part
applied to a concrete buffered state. -/
theorem merge_two_passes_witness :
    ((4 : Nat) ∈ ((addList ((addList (BarrelManager.init 2) 5 [1, 2, 2]).flush_barrels) 5
          [2, 3]).flush_barrels).get_documents_for_word 5 ↔ (4 : Nat) ∈ [1, 2, 2] ∨
          (4 : Nat) ∈ [2, 3]) ∧
      (((addList ((addList (BarrelManager.init 2) 5 [1, 2, 2]).flush_barrels) 5
          [2, 3]).flush_barrels).get_documents_for_word 5).Nodup ∧
      ((7 : Nat) ∈ (BarrelManager.init 2).get_documents_for_word 0 →
        (7 : Nat) ∈ (BarrelManager.init 2).flush_barrels.get_documents_for_word 0) :=
  ⟨(merge_two_passes 2 (by decide) 5 [1, 2, 2] [2, 3]).1.1 4,
   (merge_two_passes 2 (by decide) 5 [1, 2, 2] [2, 3]).1.2,
   (merge_two_passes 2 (by decide) 5 [1, 2, 2] [2, 3]).2 (BarrelManager.init 2)
     (bufferWF_init 2) 0 7⟩

theorem flushFailLoop_ok_no_failure : ∀ (entries : List (Nat × List (Nat × List Nat)))
    (failSet : Nat → Bool) (d d₂ : Nat → FileState),
    flushFailLoop failSet entries d = Except.ok d₂ →
    ∀ p ∈ entries, failSet p.1 = false := by
  intro entries
  induction entries with
  | nil =>
    intro failSet d d₂ _ p hp
    simp at hp
  | cons p₁ rest ih =>
    intro failSet d d₂ h p hp
    rw [flushFailLoop] at h
    by_cases hf : failSet p₁.1 = true
    · rw [if_pos hf] at h
      exact absurd h (by simp)
    · rw [if_neg hf] at h
      rcases List.mem_cons.mp hp with he | hm
      · rw [he]
        exact Bool.not_eq_true _ ▸ hf
      · exact ih failSet _ d₂ h p hm

theorem flushFailLoop_error_of_exists : ∀ (entries : List (Nat × List (Nat × List Nat)))
    (failSet : Nat → Bool) (d : Nat → FileState),
    (∃ p ∈ entries, failSet p.1 = true) →
    ∃ d₂, flushFailLoop failSet entries d = Except.error d₂ := by
  intro entries
  induction entries with
  | nil =>
    rintro failSet d ⟨p, hp, _⟩
    simp at hp
  | cons p₁ rest ih =>
    intro failSet d hex
    rw [flushFailLoop]
    by_cases hf : failSet p₁.1 = true
    · rw [if_pos hf]
      exact ⟨d, rfl⟩
    · rw [if_neg hf]
      apply ih
      rcases hex with ⟨p, hp, hfp⟩
      rcases List.mem_cons.mp hp with he | hm
      · exact absurd (he ▸ hfp) hf
      · exact ⟨p, hm, hfp⟩

/-- C8: if some buffered barrel's write fails, `flush_barrels` raises (the
error propagates) and the in-memory buffer is left exactly as it was, so a
retry re-attempts with the same pending postings; on a successful flush the
buffer is cleared — and that happens only when every buffered barrel's write
succeeded. -/
theorem flush_write_failure_semantics (s : BarrelManager) (failSet : Nat → Bool) :
    (∀ s₂, s.flush_barrels_fail failSet = Except.error s₂ →
        s₂.barrels_buffer = s.barrels_buffer) ∧
      ((∃ p ∈ s.barrels_buffer, failSet p.1 = true) →
        ∃ s₂, s.flush_barrels_fail failSet = Except.error s₂ ∧
          s₂.barrels_buffer = s.barrels_buffer) ∧
      (∀ s₂, s.flush_barrels_fail failSet = Except.ok s₂ →
        s₂.barrels_buffer = [] ∧ ∀ p ∈ s.barrels_buffer, failSet p.1 = false) := by
  refine ⟨?_, ?_, ?_⟩
  · intro s₂ h
    rw [BarrelManager.flush_barrels_fail] at h
    cases hl : flushFailLoop failSet s.barrels_buffer s.disk with
    | error e =>
      rw [hl] at h
      have hs : ({ s with disk := e } : BarrelManager) = s₂ := by
        simpa using h
      rw [← hs]
    | ok e =>
      rw [hl] at h
      simp at h
  · intro hex
    obtain ⟨d₂, hd₂⟩ := flushFailLoop_error_of_exists s.barrels_buffer failSet s.disk hex
    refine ⟨{ s with disk := d₂ }, ?_, rfl⟩
    rw [BarrelManager.flush_barrels_fail, hd₂]
  · intro s₂ h
    rw [BarrelManager.flush_barrels_fail] at h
    cases hl : flushFailLoop failSet s.barrels_buffer s.disk with
    | error e =>
      rw [hl] at h
      simp at h
    | ok e =>
      rw [hl] at h
      have hs : ({ s with disk := e, barrels_buffer := [] } : BarrelManager) = s₂ := by
        simpa using h
      exact ⟨by rw [← hs], flushFailLoop_ok_no_failure s.barrels_buffer failSet s.disk e hl⟩

/-- C8 witness: one buffered barrel whose write fails — the flush errors and
the buffer survives intact. -/
theorem flush_write_failure_semantics_witness :
    ∃ s₂, ((BarrelManager.init 2).add_to_barrel 0 7).flush_barrels_fail
          (fun b => b == 0) = Except.error s₂ ∧
      s₂.barrels_buffer = ((BarrelManager.init 2).add_to_barrel 0 7).barrels_buffer :=
  (flush_write_failure_semantics ((BarrelManager.init 2).add_to_barrel 0 7)
    (fun b => b == 0)).2.1 ⟨(0, [(0, [7])]), by decide, by decide⟩

/-- The three-document collection of the end-to-end scenario. -/
def docsC6 : List Document :=
  [⟨0, ["six", "four"]⟩, ⟨1, ["six", "wicket"]⟩, ⟨2, ["four"]⟩]

/-- The scenario pipeline, composed exactly as `main.build_indices` wires it:
lexicon from the documents, forward index from documents + lexicon, inverted
index flushed into a fresh barrel directory with barrel_size 2. -/
def barrelsC6 : BarrelManager :=
  InvertedIndexBuilder.build_from_forward_index (BarrelManager.init 2)
    ((ForwardIndexBuilder.mk (LexiconBuilder.init.build_from_documents docsC6).lexicon
        []).build_from_documents docsC6).forward_index

/-- C6: the end-to-end scenario.  For doc0 `["six","four"]`, doc1
`["six","wicket"]`, doc2 `["four"]`: the lexicon is
`{"four":0, "six":1, "wicket":2}`; the forward index is
`{0:[1,0], 1:[1,2], 2:[0]}`; with barrel_size 2, barrel 0 holds exactly
word_ids `{0,1}` with postings `{0:{0,2}, 1:{0,1}}` and barrel 1 holds
word_id `{2}` with postings `{2:{1}}`; `get_documents(0) = {0,2}` and
`get_documents(2) = {1}` (posting lists are sets; they are stored here as
duplicate-free lists). -/
theorem end_to_end_three_documents :
    (LexiconBuilder.init.build_from_documents docsC6).lexicon
      = [("four", 0), ("six", 1), ("wicket", 2)] ∧
    ((ForwardIndexBuilder.mk (LexiconBuilder.init.build_from_documents docsC6).lexicon
        []).build_from_documents docsC6).forward_index
      = [(0, [1, 0]), (1, [1, 2]), (2, [0])] ∧
    (barrelsC6.load_barrel 0).map Prod.fst = [1, 0] ∧
    dictGet (barrelsC6.load_barrel 0) 0 = some [0, 2] ∧
    dictGet (barrelsC6.load_barrel 0) 1 = some [0, 1] ∧
    (barrelsC6.load_barrel 1).map Prod.fst = [2] ∧
    dictGet (barrelsC6.load_barrel 1) 2 = some [1] ∧
    barrelsC6.get_documents_for_word 0 = [0, 2] ∧
    barrelsC6.get_documents_for_word 2 = [1] := by
  decide
